import Mathlib

/-!
Shallow embedding of the bit-field runtime engine of `bitfield/src/lib.rs`:
`create_bit_mask`, `copy_bits`, `get_field_data`, `set_field_data`.

Byte buffers (`&[u8]`, `[u8; N]`) are modelled as `List Nat` whose entries are
intended to be `< 256`; `usize` arithmetic is `Nat` arithmetic, with wrapping
subtraction made explicit as `Int` arithmetic modulo `2 ^ 64` where the Rust
code can underflow.  Panics (failed `assert!`, failed `unwrap`, slice index out
of bounds) are modelled by returning `none`.
-/

namespace Bitfield

/-- Bit `i` of a byte buffer, MSB-first within each byte (bit 0 of byte 0 is the
most significant bit of byte 0), as the packed-buffer convention states. -/
def getBit (data : List Nat) (i : Nat) : Bool :=
  (data.getD (i / 8) 0).testBit (7 - i % 8)

/-- Embedding of `create_bit_mask` (lib.rs lines 28-34).  The two `assert!`
calls and the `try_into().unwrap()` are the `none` cases. -/
def create_bit_mask (bit_start_index bit_count : Nat) : Option Nat :=
  if bit_start_index < 8 then
    if bit_start_index + bit_count ≤ 8 then
      let mask_usize : Nat := ((1 <<< bit_count) - 1) <<< (8 - bit_start_index - bit_count)
      if mask_usize < 256 then some mask_usize else none
    else none
  else none

/-- The chunk size computed at the top of each `copy_bits` loop iteration
(lib.rs lines 48-52): the minimum of the remaining bit count and the bits left
to the next byte boundary on the destination and on the source side. -/
def chunk_size (current_source_bit_index current_destination_bit_index remaining_bit_count : Nat) : Nat :=
  min remaining_bit_count
    (min (8 - current_destination_bit_index % 8) (8 - current_source_bit_index % 8))

/-- One loop iteration's update of the destination byte (lib.rs lines 60-73):
clear the masked destination bits, then OR in the masked source bits shifted by
`(destination_index % 8) - (source_index % 8)` (the Rust `% 8` on that `isize`
difference is the identity since the difference is already in `(-8, 8)`). -/
def chunk_byte (destination_byte source_byte destination_mask source_mask : Nat)
    (bit_offset : Int) : Nat :=
  let cleared := destination_byte &&& (255 ^^^ destination_mask)
  let source_bits := source_byte &&& source_mask
  let shifted_source_data :=
    if bit_offset > 0 then source_bits >>> bit_offset.toNat
    else source_bits <<< (-bit_offset).toNat
  cleared ||| shifted_source_data

/-- The `while remaining_bit_count > 0` loop of `copy_bits` (lib.rs lines
47-77).  The loop is a recursion on an explicit `fuel` counter so that the
definition is structural; `copy_bits` supplies `fuel := bit_count`, which is
enough because every iteration consumes at least one bit (the fuel-exhaustion
branch is proved unreachable in `copy_bits_go_fuel`).  Slice indexing out of
bounds is the bounds-check panic, i.e. `none`. -/
def copy_bits_go (source_data : List Nat) (fuel : Nat) (destination_data : List Nat)
    (current_source_bit_index current_destination_bit_index remaining_bit_count : Nat) :
    Option (List Nat) :=
  if remaining_bit_count = 0 then
    some destination_data
  else
    match fuel with
    | 0 => none
    | fuel + 1 =>
      let chunk_bit_count :=
        chunk_size current_source_bit_index current_destination_bit_index remaining_bit_count
      match create_bit_mask (current_destination_bit_index % 8) chunk_bit_count,
            create_bit_mask (current_source_bit_index % 8) chunk_bit_count with
      | some destination_mask, some source_mask =>
        let bit_offset : Int :=
          (current_destination_bit_index % 8 : Int) - (current_source_bit_index % 8 : Int)
        match destination_data[current_destination_bit_index / 8]?,
              source_data[current_source_bit_index / 8]? with
        | some destination_byte, some source_byte =>
          copy_bits_go source_data fuel
            (destination_data.set (current_destination_bit_index / 8)
              (chunk_byte destination_byte source_byte destination_mask source_mask bit_offset))
            (current_source_bit_index + chunk_bit_count)
            (current_destination_bit_index + chunk_bit_count)
            (remaining_bit_count - chunk_bit_count)
        | _, _ => none
      | _, _ => none

/-- Embedding of `copy_bits` (lib.rs lines 36-78). -/
def copy_bits (source_data destination_data : List Nat)
    (source_bit_start_index destination_bit_start_index bit_count : Nat) :
    Option (List Nat) :=
  copy_bits_go source_data bit_count destination_data source_bit_start_index
    destination_bit_start_index bit_count

/-- The `((FIELD_DATA_BYTE_COUNT * 8) - bit_count) % 8` computation shared by
`get_field_data` and `set_field_data` (lib.rs lines 93 and 119).  The `usize`
subtraction wraps modulo `2 ^ 64` when `bit_count` exceeds `N * 8`. -/
def field_data_bit_start_index (field_data_byte_count bit_count : Nat) : Nat :=
  ((((field_data_byte_count * 8 : Int) - (bit_count : Int)) % (2 ^ 64 : Int)).toNat) % 8

/-- Embedding of `get_field_data::<FIELD_DATA_BYTE_COUNT>` (lib.rs lines
80-104): copy `bit_count` bits from the packed buffer into a zeroed
`FIELD_DATA_BYTE_COUNT`-byte array at the right-aligned start index. -/
def get_field_data (field_data_byte_count : Nat) (bitfield_data : List Nat)
    (bit_start_index bit_count : Nat) : Option (List Nat) :=
  copy_bits bitfield_data (List.replicate field_data_byte_count 0)
    bit_start_index (field_data_bit_start_index field_data_byte_count bit_count) bit_count

/-- Embedding of `set_field_data::<FIELD_DATA_BYTE_COUNT>` (lib.rs lines
106-127): copy `bit_count` bits from the field-data array (whose length is
`FIELD_DATA_BYTE_COUNT`) into the packed buffer; the mutated packed buffer is
the returned list. -/
def set_field_data (field_data_byte_count : Nat) (bitfield_data field_data : List Nat)
    (bit_start_index bit_count : Nat) : Option (List Nat) :=
  copy_bits field_data bitfield_data (field_data_bit_start_index field_data_byte_count bit_count)
    bit_start_index bit_count

/-- The mask value a successful `create_bit_mask` call returns. -/
def bit_mask_val (bit_start_index bit_count : Nat) : Nat :=
  ((1 <<< bit_count) - 1) <<< (8 - bit_start_index - bit_count)

-- Sanity checks against the Rust unit tests in lib.rs.
example : get_field_data 1 [0b10110001] 0 1 = some [0b00000001] := by decide
example : get_field_data 1 [0b10110001, 0b11100101] 5 6 = some [0b00001111] := by decide
example : get_field_data 3 [0b10110001, 0b11100101, 0b00101110] 1 23 =
    some [0b00110001, 0b11100101, 0b00101110] := by decide
example : get_field_data 3 [0b10110001, 0b11100101, 0b00101110] 0 23 =
    some [0b01011000, 0b11110010, 0b10010111] := by decide
example : set_field_data 1 [0b10110001] [0b00000001] 4 1 = some [0b10111001] := by decide
example : set_field_data 1 [0b10110001, 0b11100101] [0b00101010] 5 6 =
    some [0b10110101, 0b01000101] := by decide
example : set_field_data 3 [0b10110001, 0b11100101, 0b00101110]
    [0b10101010, 0b10101010, 0b10101010] 0 23 =
    some [0b01010101, 0b01010101, 0b01010100] := by decide

/-! Helper lemmas about the mask value, `getBit`, and byte-level
extensionality. -/

lemma bit_mask_val_testBit (s c b : Nat) (hc : s + c ≤ 8) :
    (bit_mask_val s c).testBit b = decide (8 - s - c ≤ b ∧ b < 8 - s) := by
  rw [bit_mask_val, Nat.one_shiftLeft, Nat.testBit_shiftLeft, Nat.testBit_two_pow_sub_one,
    Bool.eq_iff_iff]
  simp only [Bool.and_eq_true, decide_eq_true_eq, ge_iff_le]
  omega

lemma bit_mask_val_lt (s c : Nat) (hc : s + c ≤ 8) : bit_mask_val s c < 2 ^ (8 - s) := by
  have h1 : (1 <<< c) - 1 < 2 ^ c := by
    rw [Nat.one_shiftLeft]
    exact Nat.sub_lt (Nat.two_pow_pos c) Nat.one_pos
  calc bit_mask_val s c = ((1 <<< c) - 1) * 2 ^ (8 - s - c) := Nat.shiftLeft_eq _ _
    _ < 2 ^ c * 2 ^ (8 - s - c) := (Nat.mul_lt_mul_right (Nat.two_pow_pos _)).mpr h1
    _ = 2 ^ (c + (8 - s - c)) := (Nat.pow_add 2 c (8 - s - c)).symm
    _ ≤ 2 ^ (8 - s) := Nat.pow_le_pow_right (by omega) (by omega)

lemma bit_mask_val_lt_256 (s c : Nat) (hc : s + c ≤ 8) : bit_mask_val s c < 256 :=
  lt_of_lt_of_le (bit_mask_val_lt s c hc)
    (le_trans (Nat.pow_le_pow_right (by omega) (by omega : 8 - s ≤ 8)) (by norm_num))

lemma create_bit_mask_eq (s c : Nat) (hs : s < 8) (hc : s + c ≤ 8) :
    create_bit_mask s c = some (bit_mask_val s c) := by
  have h256 : ((1 <<< c) - 1) <<< (8 - s - c) < 256 := bit_mask_val_lt_256 s c hc
  rw [create_bit_mask, if_pos hs, if_pos hc]
  simp only [h256, if_pos]
  rfl

lemma getBit_mul_add (l : List Nat) (j b : Nat) (hb : b < 8) :
    getBit l (8 * j + b) = (l.getD j 0).testBit (7 - b) := by
  have h1 : (8 * j + b) / 8 = j := by omega
  have h2 : (8 * j + b) % 8 = b := by omega
  rw [getBit, h1, h2]

lemma testBit_ge_eight {x k : Nat} (hx : x < 256) (hk : 8 ≤ k) : x.testBit k = false := by
  have : x < 2 ^ k :=
    lt_of_lt_of_le hx (le_trans (by norm_num : (256 : Nat) ≤ 2 ^ 8) (Nat.pow_le_pow_right (by omega) hk))
  exact Nat.testBit_lt_two_pow this

lemma eq_of_getBit_eq (l₁ l₂ : List Nat) (hlen : l₁.length = l₂.length)
    (h₁ : ∀ x ∈ l₁, x < 256) (h₂ : ∀ x ∈ l₂, x < 256)
    (h : ∀ i, getBit l₁ i = getBit l₂ i) : l₁ = l₂ := by
  apply List.ext_getElem hlen
  intro j hj1 hj2
  apply Nat.eq_of_testBit_eq
  intro k
  by_cases hk : k < 8
  · have hb := h (8 * j + (7 - k))
    rw [getBit_mul_add l₁ j (7 - k) (by omega), getBit_mul_add l₂ j (7 - k) (by omega)] at hb
    have h7 : 7 - (7 - k) = k := by omega
    rw [h7] at hb
    rwa [List.getD_eq_getElem l₁ 0 hj1, List.getD_eq_getElem l₂ 0 hj2] at hb
  · rw [testBit_ge_eight (h₁ _ (List.getElem_mem hj1)) (by omega),
      testBit_ge_eight (h₂ _ (List.getElem_mem hj2)) (by omega)]

lemma chunk_byte_testBit (db sb c u v b : Nat)
    (hu : u < 8) (hv : v < 8) (huc : u + c ≤ 8) (hvc : v + c ≤ 8) (hb : b < 8) :
    (chunk_byte db sb (bit_mask_val u c) (bit_mask_val v c) ((u : Int) - (v : Int))).testBit b
      = if 8 - u - c ≤ b ∧ b < 8 - u then sb.testBit (b + u - v) else db.testBit b := by
  have h255 : (255 : Nat).testBit b = true := by
    rw [show (255 : Nat) = 2 ^ 8 - 1 by norm_num, Nat.testBit_two_pow_sub_one]
    exact decide_eq_true (by omega)
  simp only [chunk_byte]
  by_cases hoff : ((u : Int) - (v : Int)) > 0
  · have huv : v < u := by omega
    rw [if_pos hoff, Int.toNat_sub]
    simp only [Nat.testBit_lor, Nat.testBit_land, Nat.testBit_xor, Nat.testBit_shiftRight,
      bit_mask_val_testBit u c b huc, bit_mask_val_testBit v c (u - v + b) hvc, h255,
      Bool.true_xor]
    by_cases hP : 8 - u - c ≤ b ∧ b < 8 - u
    · have hP2 : 8 - v - c ≤ u - v + b ∧ u - v + b < 8 - v := by omega
      have hidx : b + u - v = u - v + b := by omega
      rw [if_pos hP, hidx]
      simp [hP, hP2]
    · rw [if_neg hP]
      rcases Nat.lt_or_ge (b + c + u) 8 with hA | hA
      · have hA' : ¬ (8 ≤ b + c + u) := by omega
        have hC : ¬ (8 ≤ u - v + b + c + v) := by omega
        simp [hA', hC]
      · have hB : ¬ (b < 8 - u) := by omega
        have hD : ¬ (u - v + b < 8 - v) := by omega
        simp [hB, hD]
  · have huv : u ≤ v := by omega
    rw [if_neg hoff]
    have hneg : (-((u : Int) - (v : Int))).toNat = v - u := by
      rw [show (-((u : Int) - (v : Int))) = ((v : Int) - (u : Int)) by ring, Int.toNat_sub]
    rw [hneg]
    simp only [Nat.testBit_lor, Nat.testBit_land, Nat.testBit_xor, Nat.testBit_shiftLeft,
      bit_mask_val_testBit u c b huc, bit_mask_val_testBit v c (b - (v - u)) hvc, h255,
      Bool.true_xor]
    by_cases hP : 8 - u - c ≤ b ∧ b < 8 - u
    · have hge : v - u ≤ b := by omega
      have hP2 : 8 - v - c ≤ b - (v - u) ∧ b - (v - u) < 8 - v := by omega
      have hidx : b + u - v = b - (v - u) := by omega
      rw [if_pos hP, hidx]
      simp [hP, hP2, hge]
    · rw [if_neg hP]
      by_cases hge : v - u ≤ b
      · rcases Nat.lt_or_ge (b + c + u) 8 with hA | hA
        · have hA' : ¬ (8 ≤ b + c + u) := by omega
          have hC : ¬ (8 ≤ b - (v - u) + c + v) := by omega
          simp [hA', hC]
        · have hB : ¬ (b < 8 - u) := by omega
          have hD : ¬ (b - (v - u) < 8 - v) := by omega
          simp [hB, hD]
      · have hge' : ¬ (v ≤ b + u) := by omega
        have hB : b + c + u < 8 := by omega
        simp [hge', hB]

lemma chunk_byte_lt_256 (db sb c u v : Nat) (hdb : db < 256)
    (hv : v < 8) (hvc : v + c ≤ 8) (huv : (u : Int) - (v : Int) ≤ 0 → u ≤ v) :
    chunk_byte db sb (bit_mask_val u c) (bit_mask_val v c) ((u : Int) - (v : Int)) < 256 := by
  have hcleared : db &&& (255 ^^^ bit_mask_val u c) < 2 ^ 8 :=
    lt_of_le_of_lt Nat.and_le_left (by norm_num at hdb ⊢; exact hdb)
  have hmasked : sb &&& bit_mask_val v c < 2 ^ (8 - v) :=
    lt_of_le_of_lt Nat.and_le_right (bit_mask_val_lt v c hvc)
  have goal28 :
      chunk_byte db sb (bit_mask_val u c) (bit_mask_val v c) ((u : Int) - (v : Int)) < 2 ^ 8 := by
    simp only [chunk_byte]
    apply Nat.or_lt_two_pow hcleared
    by_cases hoff : ((u : Int) - (v : Int)) > 0
    · rw [if_pos hoff, Nat.shiftRight_eq_div_pow]
      exact lt_of_le_of_lt (Nat.div_le_self _ _)
        (lt_of_lt_of_le hmasked (Nat.pow_le_pow_right (by omega) (by omega)))
    · have huv' : u ≤ v := huv (by omega)
      have hneg : (-((u : Int) - (v : Int))).toNat = v - u := by
        rw [show (-((u : Int) - (v : Int))) = ((v : Int) - (u : Int)) by ring, Int.toNat_sub]
      rw [if_neg hoff, hneg, Nat.shiftLeft_eq]
      calc (sb &&& bit_mask_val v c) * 2 ^ (v - u) < 2 ^ (8 - v) * 2 ^ (v - u) :=
            (Nat.mul_lt_mul_right (Nat.two_pow_pos _)).mpr hmasked
        _ = 2 ^ (8 - v + (v - u)) := (Nat.pow_add 2 _ _).symm
        _ ≤ 2 ^ 8 := Nat.pow_le_pow_right (by omega) (by omega)
  exact lt_of_lt_of_le goal28 (by norm_num)

lemma getBit_set_chunk (src dst : List Nat) (s d c : Nat)
    (hdc : d % 8 + c ≤ 8) (hsc : s % 8 + c ≤ 8)
    (hdj : d / 8 < dst.length) (i : Nat) :
    getBit (dst.set (d / 8)
        (chunk_byte (dst.getD (d / 8) 0) (src.getD (s / 8) 0)
          (bit_mask_val (d % 8) c) (bit_mask_val (s % 8) c)
          (((d % 8 : Nat) : Int) - ((s % 8 : Nat) : Int)))) i
      = if d ≤ i ∧ i < d + c then getBit src (s + (i - d)) else getBit dst i := by
  have hu : d % 8 < 8 := Nat.mod_lt _ (by norm_num)
  have hv : s % 8 < 8 := Nat.mod_lt _ (by norm_num)
  by_cases hsame : i / 8 = d / 8
  · have hset : (dst.set (d / 8)
        (chunk_byte (dst.getD (d / 8) 0) (src.getD (s / 8) 0)
          (bit_mask_val (d % 8) c) (bit_mask_val (s % 8) c)
          (((d % 8 : Nat) : Int) - ((s % 8 : Nat) : Int)))).getD (i / 8) 0
        = chunk_byte (dst.getD (d / 8) 0) (src.getD (s / 8) 0)
          (bit_mask_val (d % 8) c) (bit_mask_val (s % 8) c)
          (((d % 8 : Nat) : Int) - ((s % 8 : Nat) : Int)) := by
      rw [List.getD_eq_getElem?_getD, hsame, List.getElem?_set, if_pos rfl, if_pos hdj]
      rfl
    rw [getBit, hset,
      chunk_byte_testBit _ _ c (d % 8) (s % 8) (7 - i % 8) hu hv hdc hsc (by omega)]
    by_cases hin : d ≤ i ∧ i < d + c
    · have hcond : 8 - d % 8 - c ≤ 7 - i % 8 ∧ 7 - i % 8 < 8 - d % 8 := by omega
      rw [if_pos hcond, if_pos hin, getBit]
      have h1 : (s + (i - d)) / 8 = s / 8 := by omega
      have h2 : 7 - (s + (i - d)) % 8 = 7 - i % 8 + d % 8 - s % 8 := by omega
      rw [h1, h2]
    · have hcond : ¬ (8 - d % 8 - c ≤ 7 - i % 8 ∧ 7 - i % 8 < 8 - d % 8) := by omega
      rw [if_neg hcond, if_neg hin, getBit, hsame]
  · have hset : (dst.set (d / 8)
        (chunk_byte (dst.getD (d / 8) 0) (src.getD (s / 8) 0)
          (bit_mask_val (d % 8) c) (bit_mask_val (s % 8) c)
          (((d % 8 : Nat) : Int) - ((s % 8 : Nat) : Int)))).getD (i / 8) 0 = dst.getD (i / 8) 0 := by
      rw [List.getD_eq_getElem?_getD, List.getElem?_set,
        if_neg (fun h => hsame h.symm), ← List.getD_eq_getElem?_getD]
    rw [getBit, hset, if_neg (by omega), getBit]

lemma copy_bits_go_spec (fuel : Nat) :
    ∀ (src dst : List Nat) (s d r : Nat), r ≤ fuel →
      s + r ≤ 8 * src.length → d + r ≤ 8 * dst.length →
      ∃ out, copy_bits_go src fuel dst s d r = some out ∧
        out.length = dst.length ∧
        (∀ i, getBit out i
          = if d ≤ i ∧ i < d + r then getBit src (s + (i - d)) else getBit dst i) ∧
        ((∀ x ∈ dst, x < 256) → ∀ x ∈ out, x < 256) := by
  induction fuel with
  | zero =>
    intro src dst s d r hr hs hd
    have hr0 : r = 0 := by omega
    subst hr0
    refine ⟨dst, rfl, rfl, ?_, fun h => h⟩
    intro i
    rw [if_neg (by omega)]
  | succ fuel ih =>
    intro src dst s d r hr hs hd
    by_cases hr0 : r = 0
    · subst hr0
      refine ⟨dst, rfl, rfl, ?_, fun h => h⟩
      intro i
      rw [if_neg (by omega)]
    · have hu : d % 8 < 8 := Nat.mod_lt _ (by norm_num)
      have hv : s % 8 < 8 := Nat.mod_lt _ (by norm_num)
      have hcmin : chunk_size s d r = min r (min (8 - d % 8) (8 - s % 8)) := rfl
      have hc1 : 1 ≤ chunk_size s d r := by omega
      have hcr : chunk_size s d r ≤ r := by omega
      have hdc : d % 8 + chunk_size s d r ≤ 8 := by omega
      have hsc : s % 8 + chunk_size s d r ≤ 8 := by omega
      have hdj : d / 8 < dst.length := by omega
      have hsj : s / 8 < src.length := by omega
      rw [copy_bits_go, if_neg hr0]
      simp only [create_bit_mask_eq (d % 8) (chunk_size s d r) hu hdc,
        create_bit_mask_eq (s % 8) (chunk_size s d r) hv hsc,
        List.getElem?_eq_getElem hdj, List.getElem?_eq_getElem hsj]
      rw [← List.getD_eq_getElem dst 0 hdj, ← List.getD_eq_getElem src 0 hsj]
      have hoffeq : ((d : Int) % 8 - (s : Int) % 8)
          = (((d % 8 : Nat) : Int) - ((s % 8 : Nat) : Int)) := by
        push_cast
        ring
      rw [hoffeq]
      obtain ⟨out, hout, hlen, hbits, hbound⟩ :=
        ih src
          (dst.set (d / 8)
            (chunk_byte (dst.getD (d / 8) 0) (src.getD (s / 8) 0)
              (bit_mask_val (d % 8) (chunk_size s d r))
              (bit_mask_val (s % 8) (chunk_size s d r))
              (((d % 8 : Nat) : Int) - ((s % 8 : Nat) : Int))))
          (s + chunk_size s d r) (d + chunk_size s d r) (r - chunk_size s d r)
          (by omega) (by omega) (by rw [List.length_set]; omega)
      refine ⟨out, hout, hlen.trans (List.length_set dst _ _), ?_, ?_⟩
      · intro i
        rw [hbits i]
        by_cases h1 : d ≤ i ∧ i < d + r
        · by_cases h2 : d + chunk_size s d r ≤ i
          · rw [if_pos ⟨h2, by omega⟩, if_pos h1]
            congr 1
            omega
          · rw [if_neg (by omega),
              getBit_set_chunk src dst s d (chunk_size s d r) hdc hsc hdj i,
              if_pos ⟨h1.1, by omega⟩, if_pos h1]
        · rw [if_neg (by omega),
            getBit_set_chunk src dst s d (chunk_size s d r) hdc hsc hdj i,
            if_neg (by omega), if_neg h1]
      · intro hdstb
        apply hbound
        intro y hy
        rcases List.mem_or_eq_of_mem_set hy with h | h
        · exact hdstb y h
        · subst h
          refine chunk_byte_lt_256 _ _ (chunk_size s d r) (d % 8) (s % 8) ?_ hv hsc (by omega)
          rw [List.getD_eq_getElem dst 0 hdj]
          exact hdstb _ (List.getElem_mem hdj)

lemma copy_bits_go_none (fuel : Nat) :
    ∀ (src dst : List Nat) (s d r : Nat), r ≤ fuel → 0 < r →
      (8 * src.length < s + r ∨ 8 * dst.length < d + r) →
      copy_bits_go src fuel dst s d r = none := by
  induction fuel with
  | zero =>
    intro src dst s d r hr hpos _
    omega
  | succ fuel ih =>
    intro src dst s d r hr hpos hoob
    have hr0 : ¬ r = 0 := by omega
    have hu : d % 8 < 8 := Nat.mod_lt _ (by norm_num)
    have hv : s % 8 < 8 := Nat.mod_lt _ (by norm_num)
    have hcmin : chunk_size s d r = min r (min (8 - d % 8) (8 - s % 8)) := rfl
    have hdc : d % 8 + chunk_size s d r ≤ 8 := by omega
    have hsc : s % 8 + chunk_size s d r ≤ 8 := by omega
    rw [copy_bits_go, if_neg hr0]
    simp only [create_bit_mask_eq (d % 8) (chunk_size s d r) hu hdc,
      create_bit_mask_eq (s % 8) (chunk_size s d r) hv hsc]
    rcases hdx : dst[d / 8]? with _ | db
    · simp [hdx]
    · rcases hsx : src[s / 8]? with _ | sb
      · simp [hdx, hsx]
      · have hdj : d / 8 < dst.length := by
          by_contra hge
          rw [List.getElem?_eq_none (by omega)] at hdx
          cases hdx
        have hsj : s / 8 < src.length := by
          by_contra hge
          rw [List.getElem?_eq_none (by omega)] at hsx
          cases hsx
        simp only [hdx, hsx]
        apply ih
        · omega
        · omega
        · rw [List.length_set]
          omega

lemma copy_bits_go_fuel (fuel : Nat) :
    ∀ (fuel' : Nat) (src dst : List Nat) (s d r : Nat), r ≤ fuel → r ≤ fuel' →
      copy_bits_go src fuel dst s d r = copy_bits_go src fuel' dst s d r := by
  have hzero : ∀ (f : Nat) (src dst : List Nat) (s d : Nat),
      copy_bits_go src f dst s d 0 = some dst := by
    intro f src dst s d
    rw [copy_bits_go.eq_def]
    simp
  induction fuel with
  | zero =>
    intro fuel' src dst s d r hr hr'
    have hr0 : r = 0 := by omega
    subst hr0
    rw [hzero, hzero]
  | succ fuel ih =>
    intro fuel' src dst s d r hr hr'
    by_cases hr0 : r = 0
    · subst hr0
      rw [hzero, hzero]
    · obtain ⟨fuel'', rfl⟩ : ∃ k, fuel' = k + 1 := ⟨fuel' - 1, by omega⟩
      have hcmin : chunk_size s d r = min r (min (8 - d % 8) (8 - s % 8)) := rfl
      rw [copy_bits_go, copy_bits_go, if_neg hr0, if_neg hr0]
      rcases hm1 : create_bit_mask (d % 8) (chunk_size s d r) with _ | m1
      · simp [hm1]
      · rcases hm2 : create_bit_mask (s % 8) (chunk_size s d r) with _ | m2
        · simp [hm1, hm2]
        · simp only [hm1, hm2]
          rcases hdx : dst[d / 8]? with _ | db
          · simp [hdx]
          · rcases hsx : src[s / 8]? with _ | sb
            · simp [hdx, hsx]
            · simp only [hdx, hsx]
              apply ih
              · omega
              · omega

lemma field_data_bit_start_index_eq (N n : Nat) (h : n ≤ N * 8) :
    field_data_bit_start_index N n = (N * 8 - n) % 8 := by
  rw [field_data_bit_start_index]
  have h1 : ((N * 8 : Int) - (n : Int)) = ((N * 8 - n : Nat) : Int) := by
    push_cast [h]
    ring
  have h2 : ((N * 8 - n : Nat) : Int) % ((2 ^ 64 : Nat) : Int)
      = (((N * 8 - n) % 2 ^ 64 : Nat) : Int) := by
    norm_cast
  rw [h1, show (2 ^ 64 : Int) = ((2 ^ 64 : Nat) : Int) by norm_num, h2, Int.toNat_natCast]
  exact Nat.mod_mod_of_dvd _ (by norm_num)

lemma field_data_bit_start_index_lt (N n : Nat) : field_data_bit_start_index N n < 8 :=
  Nat.mod_lt _ (by norm_num)

lemma getBit_replicate_zero (N i : Nat) : getBit (List.replicate N 0) i = false := by
  rw [getBit, List.getD_eq_getElem?_getD, List.getElem?_replicate]
  by_cases h : i / 8 < N
  · rw [if_pos h]
    exact Nat.zero_testBit _
  · rw [if_neg h]
    exact Nat.zero_testBit _

lemma byte_eq_zero_of_bits_false (l : List Nat) (j : Nat) (hb : ∀ x ∈ l, x < 256)
    (h : ∀ b, b < 8 → getBit l (8 * j + b) = false) : l.getD j 0 = 0 := by
  by_cases hj : j < l.length
  · apply Nat.eq_of_testBit_eq
    intro k
    rw [Nat.zero_testBit]
    by_cases hk : k < 8
    · have hbit := h (7 - k) (by omega)
      rw [getBit_mul_add l j (7 - k) (by omega), show 7 - (7 - k) = k by omega] at hbit
      exact hbit
    · refine testBit_ge_eight ?_ (by omega)
      rw [List.getD_eq_getElem l 0 hj]
      exact hb _ (List.getElem_mem hj)
  · exact List.getD_eq_default l 0 (by omega)

lemma get_field_data_correct (N : Nat) (buf : List Nat) (offset count : Nat)
    (hc2 : count ≤ N * 8) (hoff : offset + count ≤ 8 * buf.length) :
    ∃ out, get_field_data N buf offset count = some out ∧
      out.length = N ∧
      (∀ x ∈ out, x < 256) ∧
      (∀ i, getBit out i =
        if (N * 8 - count) % 8 ≤ i ∧ i < (N * 8 - count) % 8 + count
        then getBit buf (offset + (i - (N * 8 - count) % 8)) else false) := by
  rw [get_field_data, copy_bits, field_data_bit_start_index_eq N count hc2]
  obtain ⟨out, hout, hlen, hbits, hbound⟩ :=
    copy_bits_go_spec count buf (List.replicate N 0) offset ((N * 8 - count) % 8) count
      le_rfl hoff (by rw [List.length_replicate]; omega)
  refine ⟨out, hout, hlen.trans (List.length_replicate N 0), ?_, ?_⟩
  · apply hbound
    intro x hx
    rcases List.mem_replicate.mp hx with ⟨_, rfl⟩
    norm_num
  · intro i
    rw [hbits i, getBit_replicate_zero]

lemma set_field_data_correct (N : Nat) (B V : List Nat) (offset count : Nat)
    (hV : V.length = N) (hc2 : count ≤ N * 8) (hoff : offset + count ≤ 8 * B.length) :
    ∃ out, set_field_data N B V offset count = some out ∧
      out.length = B.length ∧
      (∀ i, getBit out i =
        if offset ≤ i ∧ i < offset + count
        then getBit V ((N * 8 - count) % 8 + (i - offset)) else getBit B i) ∧
      ((∀ x ∈ B, x < 256) → ∀ x ∈ out, x < 256) := by
  rw [set_field_data, copy_bits, field_data_bit_start_index_eq N count hc2]
  exact copy_bits_go_spec count V B ((N * 8 - count) % 8) offset count
    le_rfl (by rw [hV]; omega) hoff

/-! Claim theorems. -/

/-- C2: for every source buffer, destination buffer, source bit offset `s`,
destination bit offset `d`, and bit count `n` with `s + n ≤ 8*len(source)` and
`d + n ≤ 8*len(destination)`, after `copy_bits` the destination bit `d + i`
(MSB-first numbering) equals the source bit `s + i` for every `i < n`, and
every destination bit outside `[d, d+n)` is unchanged, for any alignment. -/
theorem copy_bits_correct (source_data destination_data : List Nat)
    (source_bit_start_index destination_bit_start_index bit_count : Nat)
    (hs : source_bit_start_index + bit_count ≤ 8 * source_data.length)
    (hd : destination_bit_start_index + bit_count ≤ 8 * destination_data.length) :
    ∃ out,
      copy_bits source_data destination_data source_bit_start_index
        destination_bit_start_index bit_count = some out ∧
      out.length = destination_data.length ∧
      (∀ i, i < bit_count →
        getBit out (destination_bit_start_index + i)
          = getBit source_data (source_bit_start_index + i)) ∧
      (∀ i, ¬ (destination_bit_start_index ≤ i ∧ i < destination_bit_start_index + bit_count) →
        getBit out i = getBit destination_data i) := by
  obtain ⟨out, hout, hlen, hbits, _⟩ :=
    copy_bits_go_spec bit_count source_data destination_data
      source_bit_start_index destination_bit_start_index bit_count le_rfl hs hd
  refine ⟨out, hout, hlen, ?_, ?_⟩
  · intro i hi
    rw [hbits, if_pos ⟨by omega, by omega⟩]
    congr 1
    omega
  · intro i hi
    rw [hbits, if_neg hi]

theorem copy_bits_correct_witness :
    ∃ out, copy_bits [171] [0] 2 3 4 = some out ∧ out.length = [0].length ∧
      (∀ i, i < 4 → getBit out (3 + i) = getBit [171] (2 + i)) ∧
      (∀ i, ¬ (3 ≤ i ∧ i < 3 + 4) → getBit out i = getBit [0] i) :=
  copy_bits_correct [171] [0] 2 3 4 (by decide) (by decide)

/-- C3: for every `bit_start_index_within_byte < 8` and `bit_count` with
`bit_start_index_within_byte + bit_count ≤ 8`, `create_bit_mask` returns the
byte whose `bit_count` contiguous bits starting at that position (MSB counted
as position 0) are 1 and whose remaining bits are 0. -/
theorem create_bit_mask_spec (bit_start_index bit_count : Nat)
    (hs : bit_start_index < 8) (hc : bit_start_index + bit_count ≤ 8) :
    ∃ m, create_bit_mask bit_start_index bit_count = some m ∧ m < 256 ∧
      ∀ p, p < 8 →
        (m.testBit (7 - p) = decide (bit_start_index ≤ p ∧ p < bit_start_index + bit_count)) := by
  refine ⟨bit_mask_val bit_start_index bit_count, create_bit_mask_eq _ _ hs hc,
    bit_mask_val_lt_256 _ _ hc, ?_⟩
  intro p hp
  rw [bit_mask_val_testBit _ _ _ hc, Bool.eq_iff_iff]
  simp only [decide_eq_true_eq]
  omega

theorem create_bit_mask_spec_witness :
    ∃ m, create_bit_mask 2 3 = some m ∧ m < 256 ∧
      ∀ p, p < 8 → (m.testBit (7 - p) = decide (2 ≤ p ∧ p < 2 + 3)) :=
  create_bit_mask_spec 2 3 (by decide) (by decide)

/-- C6: in every `copy_bits` loop iteration (arbitrary cursor values, positive
remaining count), the chunk size is the stated minimum of the three bounds,
the chunk lies within a single byte on both sides, both `create_bit_mask`
calls satisfy the mask preconditions (so its assertions never fire), and the
shift amount applied to the chunk byte is strictly below 8. -/
theorem chunking_invariant
    (current_source_bit_index current_destination_bit_index remaining_bit_count : Nat)
    (hr : 0 < remaining_bit_count) :
    chunk_size current_source_bit_index current_destination_bit_index remaining_bit_count
      = min remaining_bit_count
          (min (8 - current_destination_bit_index % 8) (8 - current_source_bit_index % 8)) ∧
    1 ≤ chunk_size current_source_bit_index current_destination_bit_index remaining_bit_count ∧
    current_destination_bit_index % 8
        + chunk_size current_source_bit_index current_destination_bit_index remaining_bit_count
      ≤ 8 ∧
    current_source_bit_index % 8
        + chunk_size current_source_bit_index current_destination_bit_index remaining_bit_count
      ≤ 8 ∧
    (create_bit_mask (current_destination_bit_index % 8)
      (chunk_size current_source_bit_index current_destination_bit_index
        remaining_bit_count)).isSome ∧
    (create_bit_mask (current_source_bit_index % 8)
      (chunk_size current_source_bit_index current_destination_bit_index
        remaining_bit_count)).isSome ∧
    ((current_destination_bit_index % 8 : Int)
        - (current_source_bit_index % 8 : Int)).natAbs < 8 := by
  have hcmin : chunk_size current_source_bit_index current_destination_bit_index
      remaining_bit_count
    = min remaining_bit_count
        (min (8 - current_destination_bit_index % 8)
          (8 - current_source_bit_index % 8)) := rfl
  have hdc : current_destination_bit_index % 8
      + chunk_size current_source_bit_index current_destination_bit_index remaining_bit_count
    ≤ 8 := by omega
  have hsc : current_source_bit_index % 8
      + chunk_size current_source_bit_index current_destination_bit_index remaining_bit_count
    ≤ 8 := by omega
  refine ⟨hcmin, by omega, hdc, hsc, ?_, ?_, by omega⟩
  · rw [create_bit_mask_eq _ _ (Nat.mod_lt _ (by norm_num)) hdc]
    rfl
  · rw [create_bit_mask_eq _ _ (Nat.mod_lt _ (by norm_num)) hsc]
    rfl

theorem chunking_invariant_witness :
    chunk_size 3 6 20 = min 20 (min (8 - 6 % 8) (8 - 3 % 8)) ∧
    1 ≤ chunk_size 3 6 20 ∧
    6 % 8 + chunk_size 3 6 20 ≤ 8 ∧
    3 % 8 + chunk_size 3 6 20 ≤ 8 ∧
    (create_bit_mask (6 % 8) (chunk_size 3 6 20)).isSome ∧
    (create_bit_mask (3 % 8) (chunk_size 3 6 20)).isSome ∧
    ((6 % 8 : Int) - (3 % 8 : Int)).natAbs < 8 :=
  chunking_invariant 3 6 20 (by decide)

/-- C7 counterexample: calling `get_field_data` or `set_field_data` with
`bit_count = 0` does not panic: the read returns the zero array and the write
returns the unchanged buffer, contradicting the claim that a zero width fails
fast. -/
theorem invalid_width_zero_counterexample :
    get_field_data 1 [0] 0 0 = some [0] ∧ set_field_data 1 [0] [255] 0 0 = some [0] := by
  exact ⟨rfl, rfl⟩

/-- C7 amended: for every call to `get_field_data` or `set_field_data` with
`bit_count > N*8`, the operation fails fast (modelled as `none`): the
bit-range never fits the `N`-byte field array, so the copy hits the
bounds-check panic.  (With `bit_count = 0` both operations are no-ops, see
`zero_bit_count_noop`.) -/
theorem invalid_width_fails_fast (field_data_byte_count : Nat)
    (bitfield_data field_data : List Nat) (bit_start_index bit_count : Nat)
    (hV : field_data.length = field_data_byte_count)
    (h : field_data_byte_count * 8 < bit_count) :
    get_field_data field_data_byte_count bitfield_data bit_start_index bit_count = none ∧
    set_field_data field_data_byte_count bitfield_data field_data bit_start_index bit_count
      = none := by
  constructor
  · rw [get_field_data, copy_bits]
    apply copy_bits_go_none _ _ _ _ _ _ le_rfl (by omega)
    right
    rw [List.length_replicate]
    omega
  · rw [set_field_data, copy_bits]
    apply copy_bits_go_none _ _ _ _ _ _ le_rfl (by omega)
    left
    rw [hV]
    omega

theorem invalid_width_fails_fast_witness :
    get_field_data 1 [0, 0] 0 9 = none ∧ set_field_data 1 [0, 0] [0] 0 9 = none :=
  invalid_width_fails_fast 1 [0, 0] [0] 0 9 (by decide) (by decide)

/-- C8: for every `copy_bits` call with `bit_count ≥ 1` whose source or
destination bit range extends past the end of the corresponding buffer, the
operation fails fast with the bounds-check panic (`none`); it never silently
truncates the copy and never wraps around. -/
theorem copy_bits_out_of_bounds_panics (source_data destination_data : List Nat)
    (source_bit_start_index destination_bit_start_index bit_count : Nat)
    (hn : 1 ≤ bit_count)
    (h : 8 * source_data.length < source_bit_start_index + bit_count ∨
         8 * destination_data.length < destination_bit_start_index + bit_count) :
    copy_bits source_data destination_data source_bit_start_index
      destination_bit_start_index bit_count = none :=
  copy_bits_go_none bit_count source_data destination_data _ _ _ le_rfl (by omega) h

theorem copy_bits_out_of_bounds_panics_witness :
    copy_bits [1] [2] 0 0 9 = none :=
  copy_bits_out_of_bounds_panics [1] [2] 0 0 9 (by decide) (Or.inl (by decide))

/-- C9: `copy_bits` terminates on every input: running the loop with any fuel
of at least `bit_count` iterations gives the same result (so `bit_count`
iterations always complete the loop), because in every iteration with a
positive remaining count the chunk size is between 1 and 8 bits, both cursors
advance by the chunk size, and the remaining count strictly decreases. -/
theorem copy_bits_terminates (source_data destination_data : List Nat)
    (source_bit_start_index destination_bit_start_index bit_count fuel : Nat)
    (hfuel : bit_count ≤ fuel) :
    copy_bits source_data destination_data source_bit_start_index
        destination_bit_start_index bit_count
      = copy_bits_go source_data fuel destination_data source_bit_start_index
          destination_bit_start_index bit_count ∧
    ∀ s d r, 0 < r →
      1 ≤ chunk_size s d r ∧ chunk_size s d r ≤ 8 ∧ r - chunk_size s d r < r := by
  constructor
  · exact copy_bits_go_fuel bit_count fuel _ _ _ _ _ le_rfl hfuel
  · intro s d r hr
    have hcmin : chunk_size s d r = min r (min (8 - d % 8) (8 - s % 8)) := rfl
    omega

theorem copy_bits_terminates_witness :
    (copy_bits [5] [0] 0 0 8 = copy_bits_go [5] 20 [0] 0 0 8) ∧
    ∀ s d r, 0 < r →
      1 ≤ chunk_size s d r ∧ chunk_size s d r ≤ 8 ∧ r - chunk_size s d r < r :=
  copy_bits_terminates [5] [0] 0 0 8 20 (by decide)

/-- C10: with `bit_count = 0` and an in-bounds start index, `get_field_data`
does not panic and returns the all-zero array, and `set_field_data` does not
panic and returns the packed buffer unchanged: the zero-iteration loop copies
nothing. -/
theorem zero_bit_count_noop (field_data_byte_count : Nat)
    (bitfield_data field_data : List Nat) (bit_start_index : Nat)
    (hoff : bit_start_index < 8 * bitfield_data.length)
    (hV : field_data.length = field_data_byte_count) :
    get_field_data field_data_byte_count bitfield_data bit_start_index 0
        = some (List.replicate field_data_byte_count 0) ∧
      set_field_data field_data_byte_count bitfield_data field_data bit_start_index 0
        = some bitfield_data :=
  ⟨rfl, rfl⟩

theorem zero_bit_count_noop_witness :
    get_field_data 1 [7] 2 0 = some (List.replicate 1 0) ∧
      set_field_data 1 [7] [3] 2 0 = some [7] :=
  zero_bit_count_noop 1 [7] [3] 2 (by decide) (by decide)

/-- C4: for every packed buffer, in-bounds bit range with `1 ≤ bit_count ≤
N*8`, `get_field_data` returns the array obtained by copying the `bit_count`
source bits to destination bit position `(N*8 - bit_count) % 8` of a zeroed
`N`-byte array; every byte at index at least `⌈bit_count/8⌉` is zero, and
`get_field_data 1 [0b10110001, 0b11100101] 5 6 = [0b00001111]`.  (The packed
buffer is a read-only input of the functional embedding, so it is never
mutated.) -/
theorem get_field_data_spec (N : Nat) (buf : List Nat) (offset count : Nat)
    (hc1 : 1 ≤ count) (hc2 : count ≤ N * 8) (hoff : offset + count ≤ 8 * buf.length) :
    (∃ out, get_field_data N buf offset count = some out ∧
      out.length = N ∧
      (∀ i, getBit out i =
        if (N * 8 - count) % 8 ≤ i ∧ i < (N * 8 - count) % 8 + count
        then getBit buf (offset + (i - (N * 8 - count) % 8)) else false) ∧
      (∀ j, (count + 7) / 8 ≤ j → out.getD j 0 = 0)) ∧
    get_field_data 1 [0b10110001, 0b11100101] 5 6 = some [0b00001111] := by
  obtain ⟨out, hout, hlen, hb, hbits⟩ := get_field_data_correct N buf offset count hc2 hoff
  refine ⟨⟨out, hout, hlen, hbits, ?_⟩, by decide⟩
  intro j hj
  apply byte_eq_zero_of_bits_false out j hb
  intro b hb8
  rw [hbits, if_neg (by omega)]

theorem get_field_data_spec_witness :
    ((∃ out, get_field_data 2 [0b10110001, 0b11100101] 3 7 = some out ∧
      out.length = 2 ∧
      (∀ i, getBit out i =
        if (2 * 8 - 7) % 8 ≤ i ∧ i < (2 * 8 - 7) % 8 + 7
        then getBit [0b10110001, 0b11100101] (3 + (i - (2 * 8 - 7) % 8)) else false) ∧
      (∀ j, (7 + 7) / 8 ≤ j → out.getD j 0 = 0)) ∧
    get_field_data 1 [0b10110001, 0b11100101] 5 6 = some [0b00001111]) :=
  get_field_data_spec 2 [0b10110001, 0b11100101] 3 7 (by decide) (by decide) (by decide)

/-- C5: two field-data arrays that agree on the conventional bit range
`[(N*8 - bit_count) % 8, (N*8 - bit_count) % 8 + bit_count)` but differ
arbitrarily elsewhere produce identical final packed buffers under
`set_field_data`, and only the targeted bit range of the packed buffer
changes. -/
theorem set_field_data_ignores_stray_bits (N : Nat) (B V1 V2 : List Nat)
    (offset count : Nat)
    (hB : ∀ x ∈ B, x < 256) (hV1 : V1.length = N) (hV2 : V2.length = N)
    (hc1 : 1 ≤ count) (hc2 : count ≤ N * 8) (hoff : offset + count ≤ 8 * B.length)
    (hagree : ∀ i, (N * 8 - count) % 8 ≤ i → i < (N * 8 - count) % 8 + count →
      getBit V1 i = getBit V2 i) :
    set_field_data N B V1 offset count = set_field_data N B V2 offset count ∧
    ∃ B1, set_field_data N B V1 offset count = some B1 ∧
      ∀ i, ¬ (offset ≤ i ∧ i < offset + count) → getBit B1 i = getBit B i := by
  obtain ⟨B1, hset1, hlen1, hbits1, hbound1⟩ :=
    set_field_data_correct N B V1 offset count hV1 hc2 hoff
  obtain ⟨B2, hset2, hlen2, hbits2, hbound2⟩ :=
    set_field_data_correct N B V2 offset count hV2 hc2 hoff
  have heq : B1 = B2 := by
    apply eq_of_getBit_eq B1 B2 (hlen1.trans hlen2.symm) (hbound1 hB) (hbound2 hB)
    intro i
    rw [hbits1 i, hbits2 i]
    by_cases hin : offset ≤ i ∧ i < offset + count
    · rw [if_pos hin, if_pos hin]
      exact hagree _ (by omega) (by omega)
    · rw [if_neg hin, if_neg hin]
  refine ⟨by rw [hset1, hset2, heq], B1, hset1, ?_⟩
  intro i hi
  rw [hbits1 i, if_neg hi]

theorem set_field_data_ignores_stray_bits_witness :
    (set_field_data 1 [0b10110001, 0b11100101] [0b00000101] 5 3
        = set_field_data 1 [0b10110001, 0b11100101] [0b11100101] 5 3) ∧
    ∃ B1, set_field_data 1 [0b10110001, 0b11100101] [0b00000101] 5 3 = some B1 ∧
      ∀ i, ¬ (5 ≤ i ∧ i < 5 + 3) →
        getBit B1 i = getBit [0b10110001, 0b11100101] i :=
  set_field_data_ignores_stray_bits 1 [0b10110001, 0b11100101] [0b00000101] [0b11100101] 5 3
    (by decide) (by decide) (by decide) (by decide) (by decide) (by decide)
    (fun i h1 h2 => by interval_cases i <;> decide)

/-- C1: round trip.  For every packed buffer `B`, valid `(offset, count)` with
`1 ≤ count ≤ N*8` and `offset + count ≤ 8*len(B)`, and every `N`-byte value
`V` whose bits outside the conventional range (right-aligned starting at bit
`(N*8 - count) % 8`) are zero: `set_field_data` then `get_field_data` returns
exactly `V`, and every bit of the buffer outside `[offset, offset + count)`
keeps its value. -/
theorem set_get_round_trip (N : Nat) (B V : List Nat) (offset count : Nat)
    (hV : V.length = N) (hVb : ∀ x ∈ V, x < 256)
    (hc1 : 1 ≤ count) (hc2 : count ≤ N * 8)
    (hoff : offset + count ≤ 8 * B.length)
    (hconv : ∀ i, ¬ ((N * 8 - count) % 8 ≤ i ∧ i < (N * 8 - count) % 8 + count) →
      getBit V i = false) :
    ∃ B1, set_field_data N B V offset count = some B1 ∧
      get_field_data N B1 offset count = some V ∧
      ∀ i, ¬ (offset ≤ i ∧ i < offset + count) → getBit B1 i = getBit B i := by
  obtain ⟨B1, hset, hlen, hbits, _⟩ := set_field_data_correct N B V offset count hV hc2 hoff
  obtain ⟨out, hget, holen, hob, hobits⟩ :=
    get_field_data_correct N B1 offset count hc2 (by rw [hlen]; omega)
  have houtV : out = V := by
    apply eq_of_getBit_eq out V (holen.trans hV.symm) hob hVb
    intro i
    rw [hobits i]
    by_cases hin : (N * 8 - count) % 8 ≤ i ∧ i < (N * 8 - count) % 8 + count
    · rw [if_pos hin, hbits, if_pos (by omega : offset ≤ offset + (i - (N * 8 - count) % 8)
        ∧ offset + (i - (N * 8 - count) % 8) < offset + count)]
      congr 1
      omega
    · rw [if_neg hin, (hconv i hin).symm]
  refine ⟨B1, hset, ?_, ?_⟩
  · rw [hget, houtV]
  · intro i hi
    rw [hbits i, if_neg hi]

theorem set_get_round_trip_witness :
    ∃ B1, set_field_data 3 [0b10110001, 0b11100101, 0b00101110]
        [0b01010101, 0b01101100, 0b01110101] 1 23 = some B1 ∧
      get_field_data 3 B1 1 23 = some [0b01010101, 0b01101100, 0b01110101] ∧
      ∀ i, ¬ (1 ≤ i ∧ i < 1 + 23) →
        getBit B1 i = getBit [0b10110001, 0b11100101, 0b00101110] i :=
  set_get_round_trip 3 [0b10110001, 0b11100101, 0b00101110]
    [0b01010101, 0b01101100, 0b01110101] 1 23 (by decide) (by decide) (by decide)
    (by decide) (by decide) (fun i h => by
      by_cases hi : i < 24
      · interval_cases i <;> first | (exact absurd (by omega) h) | decide
      · rw [getBit, List.getD_eq_default _ _ (by simp; omega)]
        exact Nat.zero_testBit _)

end Bitfield
